import Mathlib

/-!
# JokeAPI entry point: a shallow embedding of `src/main.js`

The development follows the source file top to bottom:

* the JavaScript values that reach the code and the operators it applies to them
  (`typeof`, truthiness, `isNaN`, binary `+`, `<`, `Array.prototype.reduce`);
* the shutdown handler `softExit`;
* the splash subsystem `loadSplashes` / `getSplash`;
* the start-up orchestrator `initAll` with its fatal path `initError`.

Numbers are integers (`Int`) together with `NaN`; this is exact for every integer
valued double in the safe range.  Objects are finite maps from own property names
to values, kept in insertion order; the `splashes` object, which is read with arbitrary
keys, is modelled together with its prototype chain.  Asynchronous steps are represented
by the way their future settles, and the observable effects of a run are collected
in an event trace.
-/

namespace JokeAPI

/-! ## JavaScript values -/

/-- The JavaScript values handled by `main.js`.  A plain object records the one property
the orchestrator ever reads from a stage result, `initTimeDeduction`; reading a property
that is not there yields `undefined`, so the empty object is `obj undefined`. -/
inductive JSVal where
  | undefined
  | null
  | bool (b : Bool)
  | num (n : Int)
  | nan
  | str (s : String)
  | obj (initTimeDeduction : JSVal)
  | error (name : String) (message : String)
  deriving DecidableEq, Repr

/-- The `typeof` operator. -/
def typeof : JSVal → String
  | .undefined => "undefined"
  | .null => "object"
  | .bool _ => "boolean"
  | .num _ => "number"
  | .nan => "number"
  | .str _ => "string"
  | .obj _ => "object"
  | .error _ _ => "object"

/-- ToBoolean: the values that count as true in a condition, `&&` and `||`. -/
def truthy : JSVal → Bool
  | .undefined => false
  | .null => false
  | .bool b => b
  | .num n => n != 0
  | .nan => false
  | .str s => s != ""
  | .obj _ => true
  | .error _ _ => true

/-- `Error.prototype.toString`. -/
def errorToString (name message : String) : String :=
  if message = "" then name
  else if name = "" then message
  else name ++ ": " ++ message

/-- ToString, as applied by string concatenation and `.toString()`. -/
def toStr : JSVal → String
  | .undefined => "undefined"
  | .null => "null"
  | .bool b => if b then "true" else "false"
  | .num n => toString n
  | .nan => "NaN"
  | .str s => s
  | .obj _ => "[object Object]"
  | .error name message => errorToString name message

/-- ToNumber, with `none` standing for `NaN`.  A string converts when it is empty or a
decimal integer literal; `main.js` never converts a string to a number (every use is
guarded by a `typeof` test or ends in string concatenation). -/
def toNumber : JSVal → Option Int
  | .undefined => none
  | .null => some 0
  | .bool b => some (if b then 1 else 0)
  | .num n => some n
  | .nan => none
  | .str s => if s.trim = "" then some 0 else s.trim.toInt?
  | .obj _ => none
  | .error _ _ => none

/-- The global `isNaN`. -/
def isNaN (v : JSVal) : Bool :=
  (toNumber v).isNone

/-- Whether ToPrimitive of the value is a string, which makes `+` a concatenation. -/
def concatenates : JSVal → Bool
  | .str _ => true
  | .obj _ => true
  | .error _ _ => true
  | _ => false

/-- The binary `+` operator. -/
def jsAdd (a b : JSVal) : JSVal :=
  if concatenates a || concatenates b then .str (toStr a ++ toStr b)
  else
    match toNumber a, toNumber b with
    | some x, some y => .num (x + y)
    | _, _ => .nan

/-- The `<` operator with a number on the right-hand side. -/
def jsLt (a : JSVal) (b : Int) : Bool :=
  match toNumber a with
  | some x => decide (x < b)
  | none => false

/-- Reading `r.initTimeDeduction` from a value that is not `undefined` or `null`. -/
def getInitTimeDeduction : JSVal → JSVal
  | .obj f => f
  | _ => .undefined

/-- `Array.prototype.reduce(callback)` called without an initial value: the accumulator
starts as the first element and the callback runs from the second element on; on an empty
array a `TypeError` is thrown. -/
def arrayReduce (callback : JSVal → JSVal → JSVal) : List JSVal → Except JSVal JSVal
  | [] => .error (.error "TypeError" "Reduce of empty array with no initial value")
  | first :: rest => .ok (rest.foldl callback first)

/-! ## Shutdown handler -/

/-- How the future returned by `analytics.endSqlConnection()` behaves. -/
inductive Cleanup where
  | resolved
  | rejected (reason : JSVal)
  | threw (err : JSVal)
  | pending
  deriving DecidableEq, Repr

/-- `softExit(code)`: the argument handed to `process.exit`, or `none` when the awaited
clean-up never settles and `process.exit` is therefore never reached. -/
def softExit (code : JSVal) (endSqlConnection : Cleanup) : Option JSVal :=
  let code := if typeof code != "number" || jsLt code 0 then JSVal.num 0 else code
  match endSqlConnection with
  | .resolved => some code
  | .rejected _ => some code
  | .threw _ => some code
  | .pending => none

/-! ## Splash subsystem -/

/-- The own enumerable property names of an object, each once, in insertion order
(`Object.keys`; language codes are no array indices, which JavaScript would list first). -/
def objectKeys {α : Type} : List (String × α) → List String
  | [] => []
  | (key, _) :: rest => key :: (objectKeys rest).filter (fun other => other != key)

/-- One element of the `splashes` array of the splash file, as `JSON.parse` builds it: its
own properties, language code to value (`JSON.parse` makes every key of the text an own
property, the key `__proto__` included). -/
abbrev SplashObj := List (String × JSVal)

/-- The object kept in the module variable `splashes`.  It is created as `{}`: `own` lists
its own properties, language code to the array of its splash texts, and `proto` is its
prototype, `none` for `Object.prototype` and `some items` once an array with these items
has been installed as the prototype. -/
structure SplashMap where
  own : List (String × List JSVal) := []
  proto : Option (List JSVal) := none
  deriving DecidableEq, Repr

/-- What a property read on the `splashes` object can evaluate to: an array, a function
with its `length`, the object `Object.prototype`, or another value (`undefined` for a
property found nowhere on the prototype chain). -/
inductive PropValue where
  | array (items : List JSVal)
  | function (length : Nat)
  | objectPrototype
  | value (v : JSVal)
  deriving DecidableEq, Repr

/-- `Array.isArray`. -/
def PropValue.isArray : PropValue → Bool
  | .array _ => true
  | _ => false

/-- The condition `x && x.length > 0`: an array or a function is true as a condition and
has a numeric `length`; a non-empty string has a positive `length`; every other value is
false as a condition or has no `length`, and `undefined > 0` is false. -/
def PropValue.hasPositiveLength : PropValue → Bool
  | .array items => decide (items.length > 0)
  | .function length => decide (length > 0)
  | .objectPrototype => false
  | .value (.str s) => decide (s.length > 0)
  | .value _ => false

/-- The methods that every object inherits from `Object.prototype`, by name, with their
`length` (the accessor `__proto__` is treated in `readProp`). -/
def objectPrototypeMethod (key : String) : Option Nat :=
  [("constructor", 1), ("hasOwnProperty", 1), ("isPrototypeOf", 1),
    ("propertyIsEnumerable", 1), ("toLocaleString", 0), ("toString", 0), ("valueOf", 0),
    ("__defineGetter__", 2), ("__defineSetter__", 2), ("__lookupGetter__", 1),
    ("__lookupSetter__", 1)].lookup key

/-- The element of an array that the property name `key` denotes: the element at position
`i` (counted from `start`) when `key` is the decimal form of `i`. -/
def indexProp (start : Nat) : List JSVal → String → Option JSVal
  | [], _ => none
  | item :: rest, key => if toString start = key then some item else indexProp (start + 1) rest key

/-- The property read `splashes[key]`, along the prototype chain: an own property first;
`__proto__` reads the prototype itself; with an array installed as the prototype, its
elements and its `length`, then the methods of `Array.prototype` (they depend on the
JavaScript engine and are the parameter `arrayMethods`: name to `length`); last the methods
of `Object.prototype`. -/
def readProp (arrayMethods : String → Option Nat) (splashes : SplashMap) (key : String) :
    PropValue :=
  match splashes.own.lookup key with
  | some items => .array items
  | none =>
    if key = "__proto__" then
      match splashes.proto with
      | some items => .array items
      | none => .objectPrototype
    else
      let fromObjectPrototype : PropValue :=
        match objectPrototypeMethod key with
        | some length => .function length
        | none => .value .undefined
      match splashes.proto with
      | none => fromObjectPrototype
      | some items =>
        match indexProp 0 items key with
        | some item => .value item
        | none =>
          if key = "length" then .value (.num items.length)
          else
            match arrayMethods key with
            | some length => .function length
            | none => fromObjectPrototype

/-- The property read `splashObj[langCode]`; a property that is not there reads as
`undefined`. -/
def getProp (splashObj : SplashObj) (langCode : String) : JSVal :=
  (splashObj.lookup langCode).getD .undefined

/-- The assignment `splashes[key] = []`: the key `__proto__` runs the setter inherited from
`Object.prototype`, which installs the new array as the prototype and creates no own
property; every other key gets the empty array as an own property (replaced in place when
it exists, appended otherwise). -/
def assignEmptyArray (splashes : SplashMap) (key : String) : SplashMap :=
  if key = "__proto__" then { splashes with proto := some [] }
  else if (splashes.own.lookup key).isSome then
    { splashes with
      own := splashes.own.map fun entry => if entry.1 = key then (entry.1, []) else entry }
  else { splashes with own := splashes.own ++ [(key, [])] }

/-- The call `splashes[key].push(text)` on an array: the array is the own property `key`,
or for `__proto__` the array installed as the prototype. -/
def pushOnto (splashes : SplashMap) (key : String) (text : JSVal) : SplashMap :=
  if (splashes.own.lookup key).isSome then
    { splashes with
      own := splashes.own.map fun entry =>
        if entry.1 = key then (entry.1, entry.2 ++ [text]) else entry }
  else if key = "__proto__" then
    { splashes with proto := splashes.proto.map fun items => items ++ [text] }
  else splashes

/-- The body of the inner `forEach` of `loadSplashes`: when `splashes[langCode]` is not an
array it is assigned the empty array, then the text is pushed onto `splashes[langCode]`. -/
def pushSplash (arrayMethods : String → Option Nat) (splashes : SplashMap) (langCode : String)
    (splashText : JSVal) : SplashMap :=
  let splashes :=
    if !(readProp arrayMethods splashes langCode).isArray then assignEmptyArray splashes langCode
    else splashes
  pushOnto splashes langCode splashText

/-- The inner `forEach` of `loadSplashes` for one element of the `splashes` array: every
key of the element, in the order of `Object.keys`, with the value read under it. -/
def pushObject (arrayMethods : String → Option Nat) (splashes : SplashMap)
    (splashObj : SplashObj) : SplashMap :=
  (objectKeys splashObj).foldl
    (fun splashes langCode =>
      pushSplash arrayMethods splashes langCode (getProp splashObj langCode))
    splashes

/-- The outer `forEach` of `loadSplashes`, starting from the empty object `{}`. -/
def projectSplashes (arrayMethods : String → Option Nat) (splashObjs : List SplashObj) :
    SplashMap :=
  splashObjs.foldl (pushObject arrayMethods) {}

/-- The parsed content of a splash file of the documented shape. -/
structure SplashesFile where
  defaultLang : String
  splashes : List SplashObj
  deriving DecidableEq, Repr

/-- What `fs.readFile` followed by the `try` block delivers: a read error; an exception
thrown before `splashDefaultLang` is assigned (`JSON.parse` fails, or the parsed value has
no properties to read); an exception thrown after that assignment (the `splashes` property
cannot be iterated), with the default language that was assigned; or a file of the
documented shape. -/
inductive ReadResult where
  | readError (err : JSVal)
  | unparsable (err : JSVal)
  | malformed (defaultLang : String) (err : JSVal)
  | parsed (file : SplashesFile)
  deriving DecidableEq, Repr

/-- The three rejection reasons of `loadSplashes`, in source order: the file could not be
read, no splashes are present in the file, and the general error of the `catch` block. -/
inductive LoadRejection where
  | couldNotRead (err : JSVal)
  | noSplashes
  | generalError (err : JSVal)
  deriving DecidableEq, Repr

/-- `loadSplashes()`: the value of the module variable `splashDefaultLang` afterwards, and
how the returned future settles.  The variable is only ever used as a property key and is
represented by the key it denotes. -/
def loadSplashes (arrayMethods : String → Option Nat) (splashDefaultLang : String)
    (data : ReadResult) : String × Except LoadRejection SplashMap :=
  match data with
  | .readError err => (splashDefaultLang, .error (.couldNotRead err))
  | .unparsable err => (splashDefaultLang, .error (.generalError err))
  | .malformed defaultLang err => (defaultLang, .error (.generalError err))
  | .parsed splashesFile =>
    let splashDefaultLang := splashesFile.defaultLang
    let splashObjs := splashesFile.splashes
    let splashes := projectSplashes arrayMethods splashObjs
    if (objectKeys splashes.own).length > 0 then (splashDefaultLang, .ok splashes)
    else (splashDefaultLang, .error .noSplashes)

/-- The module state of the splash subsystem, with the initial values of `main.js`. -/
structure SplashState where
  splashes : SplashMap := {}
  splashDefaultLang : String := "en"
  deriving DecidableEq, Repr

/-- Modelled from the spec: `randomItem` of the svcorelib package, which is not under src/.
It picks one element of a non-empty array, here the one selected by the random draw `rnd`;
`none` stands for the uncontracted outcome on an empty array and on a value that is not an
array. -/
def randomItem (rnd : Nat) (array : PropValue) : Option JSVal :=
  match array with
  | .array items => items[rnd % items.length]?
  | _ => none

/-- `getSplash(lang)` under the random draw `rnd`. -/
def getSplash (arrayMethods : String → Option Nat) (state : SplashState) (rnd : Nat)
    (lang : String) : Option JSVal :=
  let langSplashes := readProp arrayMethods state.splashes lang
  if langSplashes.hasPositiveLength then
    randomItem rnd langSplashes
  else
    randomItem rnd (readProp arrayMethods state.splashes state.splashDefaultLang)

/-- Some methods of `Array.prototype` with their `length`, for the examples. -/
def sampleArrayMethods (key : String) : Option Nat :=
  [("constructor", 1), ("concat", 1), ("forEach", 1), ("indexOf", 1), ("join", 1),
    ("map", 1), ("pop", 0), ("push", 1), ("slice", 2), ("toString", 0)].lookup key

/-! ## Initialization orchestrator -/

/-- How the future returned by a stage's `fn()` settles. -/
inductive Settled where
  | resolved (value : JSVal)
  | rejected (reason : JSVal)
  deriving DecidableEq, Repr

/-- An entry of `initStages`: the name of the module, and its `init` function, which takes
no argument and is represented by the way the future of its call settles. -/
structure Stage where
  name : String
  fn : Settled
  deriving DecidableEq, Repr

/-- The observable effects of a run of `initAll`. -/
inductive Event where
  | progressBarCreated (timesToUpdate : Nat) (label : String)
  | debug (area : String) (message : String)
  | stageInvoked (index : Nat)
  | stageSettled (index : Nat) (ok : Bool)
  | pbNext (label : String)
  | initMsg (initTimestamp : Nat) (initTimeDeduction : JSVal)
  | consoleLog (text : String)
  | processExit (code : Nat)
  deriving DecidableEq, Repr

/-- Why the future of `initAll` rejects: the awaited `loadSplashes()` rejected, or an
exception was thrown outside the `try` blocks. -/
inductive Rejection where
  | splashLoad (reason : LoadRejection)
  | thrown (err : JSVal)
  deriving DecidableEq, Repr

/-- How a call of `initAll` ends: its future fulfils, its future rejects, or the process
has been terminated by `process.exit`. -/
inductive Completion where
  | fulfilled
  | rejected (reason : Rejection)
  | exited (code : Nat)
  deriving DecidableEq, Repr

/-- The events that belong to a stage: its `init` was called, its future settled. -/
def Event.isStageEvent : Event → Bool
  | .stageInvoked _ => true
  | .stageSettled _ _ => true
  | _ => false

/-- The index of the stage whose `init` an event reports as called. -/
def Event.invokedIndex : Event → Option Nat
  | .stageInvoked index => some index
  | _ => none

/-- Whether an event is a call of `pb.next`. -/
def Event.isPbNext : Event → Bool
  | .pbNext _ => true
  | _ => false

/-- Modelled from the spec: `promiseAllSequential` of the promise-all-sequential package,
which is not under src/.  The functions are called one after the other, lowest index
first, each one only after the future of the one before has settled; the results are
collected in order, and the first rejection rejects the whole sequence without calling the
functions that remain. -/
def promiseAllSequential (index : Nat) : List Settled → List Event × Except JSVal (List JSVal)
  | [] => ([], .ok [])
  | .rejected reason :: _ =>
    ([.stageInvoked index, .stageSettled index false], .error reason)
  | .resolved value :: rest =>
    let tail := promiseAllSequential (index + 1) rest
    (.stageInvoked index :: .stageSettled index true :: tail.1,
      match tail.2 with
      | .ok values => .ok (value :: values)
      | .error reason => .error reason)

/-- The callback of the `reduce` in `initAll`. -/
def addDeduction (acc r : JSVal) : JSVal :=
  jsAdd acc
    (if truthy r && typeof (getInitTimeDeduction r) == "number" && !isNaN (getInitTimeDeduction r)
      then getInitTimeDeduction r else .num 0)

/-- The constant `initTimeDeduction` of `initAll`: the `reduce` over the stage results,
which is called without an initial value. -/
def initTimeDeduction (initRes : List JSVal) : Except JSVal JSVal :=
  arrayReduce addDeduction initRes

/-- The total deduction as the specification describes it: the sum of the
`initTimeDeduction` fields that are numbers and not `NaN`, every other result counting 0. -/
def specTotalDeduction (results : List JSVal) : Int :=
  (results.map fun r =>
    match r with
    | .obj (.num n) => n
    | _ => 0).sum

/-- What surrounds a run of `initAll`: the clock, the outcome of `filesystem.ensureDirs`,
the splash file, the debugger and settings flags, the two colour codes, the methods of the engine's
`Array.prototype` and the stages. -/
structure InitEnv where
  now : Nat
  ensureDirs : Except JSVal Unit
  splashesFile : ReadResult
  noDbg : Bool
  progressBarDisabled : Bool
  colRed : String
  colorsRst : String
  arrayMethods : String → Option Nat
  initStages : List Stage

/-- `initError(action, err)`: print the message and leave with exit code 1. -/
def initError (env : InitEnv) (action : String) (err : JSVal) : List Event × Completion :=
  let errMsg :=
    let shown := match err with
      | .error name message => JSVal.str (errorToString name message)
      | other => other
    if truthy shown then shown else JSVal.str "(No error message provided)"
  ([.consoleLog ("\n\n" ++ env.colRed ++ "JokeAPI encountered an error while " ++ action
      ++ ":\n" ++ toStr errMsg ++ "\n\n" ++ env.colorsRst),
    .processExit 1], .exited 1)

/-- The result of a run of `initAll`. -/
structure Run where
  events : List Event
  state : SplashState
  completion : Completion

/-- The text produced by the template literals that mention the number of stages. -/
def modulesText (before : String) (count : Nat) (after : String) : String :=
  before ++ toString count ++ after

/-- The arguments of `new ProgressBar(timesToUpdate, initialMessage)`. -/
structure ProgressBar where
  timesToUpdate : Nat
  label : String
  deriving DecidableEq, Repr

/-- The conditional construction of the progress bar: `undefined` when the debugger is
active or the bar is disabled in the settings, otherwise a bar with one step per stage,
labelled with the name of the first stage (reading that name throws when there is no
first stage). -/
def createProgressBar (env : InitEnv) : Except JSVal (Option ProgressBar) :=
  if !env.noDbg && !env.progressBarDisabled then
    match env.initStages with
    | [] => .error (.error "TypeError" "Cannot read properties of undefined")
    | first :: _ => .ok (some ⟨env.initStages.length, "Initializing " ++ first.name⟩)
  else .ok none

/-- The events of constructing the progress bar, none when `pb` is `undefined`. -/
def pbCreated (pb : Option ProgressBar) : List Event :=
  match pb with
  | some bar => [.progressBarCreated bar.timesToUpdate bar.label]
  | none => []

/-- `initAll()`, started in the module state `state`. -/
def initAll (env : InitEnv) (state : SplashState) : Run :=
  match env.ensureDirs with
  | .error err =>
    let fatal := initError env "creating directory structure" err
    ⟨fatal.1, state, fatal.2⟩
  | .ok _ =>
    let initStages := env.initStages
    let initPromises := initStages.map fun stage => stage.fn
    match loadSplashes env.arrayMethods state.splashDefaultLang env.splashesFile with
    | (defaultLang, .error reason) =>
      ⟨[], { state with splashDefaultLang := defaultLang }, .rejected (.splashLoad reason)⟩
    | (defaultLang, .ok splashes) =>
      let state : SplashState := ⟨splashes, defaultLang⟩
      match createProgressBar env with
      | .error err => ⟨[], state, .rejected (.thrown err)⟩
      | .ok pb =>
        let start := Event.debug "Init"
          (modulesText "Sequentially initializing all " initStages.length " modules...")
        let sequence := promiseAllSequential 0 initPromises
        match sequence.2.bind initTimeDeduction with
        | .ok deduction =>
          ⟨pbCreated pb ++ start :: sequence.1 ++
            (if pb.isSome then
              [.pbNext (modulesText "Successfully initialized all " initStages.length " modules")]
            else []) ++
            [.debug "Init"
                (modulesText "Successfully initialized all " initStages.length " modules."),
              .initMsg env.now deduction],
            state, .fulfilled⟩
        | .error err =>
          let fatal := initError env "initializing" err
          ⟨pbCreated pb ++ start :: sequence.1 ++ fatal.1, state, fatal.2⟩

/-- The stages of `main.js`, in source order, each with the way its `init` settles. -/
def initStages (settle : Fin 11 → Settled) : List Stage :=
  [⟨"Languages module", settle 0⟩,
   ⟨"Translations module", settle 1⟩,
   ⟨"Joke parser module", settle 2⟩,
   ⟨"Lists module", settle 3⟩,
   ⟨"Documentation module", settle 4⟩,
   ⟨"Authorization module", settle 5⟩,
   ⟨"URL parser module", settle 6⟩,
   ⟨"HTTP server module", settle 7⟩,
   ⟨"Analytics module", settle 8⟩,
   ⟨"Joke cache module", settle 9⟩,
   ⟨"pm2 meter module", settle 10⟩]

/-- A start-up environment in which the directories exist, the splash file holds one
English splash and the progress bar is enabled, around the given stages. -/
def sampleEnv (stages : List Stage) : InitEnv :=
  { now := 1000, ensureDirs := .ok (),
    splashesFile := .parsed ⟨"en", [[("en", .str "a")]]⟩,
    noDbg := false, progressBarDisabled := false, colRed := "", colorsRst := "",
    arrayMethods := sampleArrayMethods, initStages := stages }

/-! ## Theorems -/

/-! ### The shutdown handler -/

/-- Once the clean-up has settled, in whichever way, `process.exit` is called with the
normalized code. -/
theorem softExit_settled (code : JSVal) (cleanup : Cleanup) (h : cleanup ≠ Cleanup.pending) :
    softExit code cleanup =
      some (match code with
        | .num n => if n < 0 then JSVal.num 0 else JSVal.num n
        | .nan => JSVal.nan
        | _ => JSVal.num 0) := by
  cases cleanup with
  | pending => exact absurd rfl h
  | resolved => cases code <;> simp [softExit, typeof, jsLt, toNumber]
  | rejected r => cases code <;> simp [softExit, typeof, jsLt, toNumber]
  | threw e => cases code <;> simp [softExit, typeof, jsLt, toNumber]

/-- C4: for every argument of `softExit` and every way the clean-up settles, `process.exit`
receives 0 when the argument is omitted (`undefined`), a negative number, or not of type
number, and receives the argument itself otherwise; `softExit(-3)` and
`softExit(undefined)` exit with 0 and `softExit(2)` exits with 2. -/
theorem softExit_normalizes (code : JSVal) (cleanup : Cleanup) (h : cleanup ≠ Cleanup.pending) :
    softExit code cleanup =
        some (match code with
          | .num n => if n < 0 then JSVal.num 0 else JSVal.num n
          | .nan => JSVal.nan
          | _ => JSVal.num 0)
      ∧ softExit (.num (-3)) cleanup = some (.num 0)
      ∧ softExit .undefined cleanup = some (.num 0)
      ∧ softExit (.num 2) cleanup = some (.num 2) :=
  ⟨softExit_settled code cleanup h, softExit_settled (.num (-3)) cleanup h,
    softExit_settled .undefined cleanup h, softExit_settled (.num 2) cleanup h⟩

/-- Witness for C4: `softExit(-3)` with a rejecting clean-up. -/
theorem softExit_normalizes_witness :
    softExit (.num (-3)) (.rejected (.str "connection lost")) = some (.num 0) :=
  (softExit_normalizes (.num (-3)) (.rejected (.str "connection lost")) (by decide)).1

/-- C7: for every argument of `softExit`, a clean-up that rejects (or throws) leads to the
same call of `process.exit` as a clean-up that resolves: the process terminates, and it
does so with the normalized code in either case. -/
theorem softExit_swallows_cleanup_errors (code reason : JSVal) :
    softExit code (.rejected reason) = softExit code .resolved
      ∧ softExit code (.threw reason) = softExit code .resolved
      ∧ softExit code (.rejected reason) =
          some (match code with
            | .num n => if n < 0 then JSVal.num 0 else JSVal.num n
            | .nan => JSVal.nan
            | _ => JSVal.num 0)
      ∧ softExit code .resolved =
          some (match code with
            | .num n => if n < 0 then JSVal.num 0 else JSVal.num n
            | .nan => JSVal.nan
            | _ => JSVal.num 0) :=
  ⟨rfl, rfl, softExit_settled code (.rejected reason) (by simp),
    softExit_settled code .resolved (by simp)⟩

/-! ### The deduction total -/

/-- One step of the callback on a numeric accumulator adds the contribution that the
specification describes for the result. -/
theorem addDeduction_num (k : Int) (r : JSVal) :
    addDeduction (.num k) r = .num (k + specTotalDeduction [r]) := by
  cases r with
  | obj field =>
    cases field <;>
      simp [addDeduction, jsAdd, concatenates, toNumber, truthy, typeof, getInitTimeDeduction,
        isNaN, specTotalDeduction]
  | bool b =>
    cases b <;>
      simp [addDeduction, jsAdd, concatenates, toNumber, truthy, typeof, getInitTimeDeduction,
        specTotalDeduction]
  | _ =>
    simp [addDeduction, jsAdd, concatenates, toNumber, truthy, typeof, getInitTimeDeduction,
      specTotalDeduction]

/-- Started from a number, the callback of the `reduce` accumulates the total that the
specification describes: the `reduce` would compute it had it been given the initial
value 0. -/
theorem foldl_addDeduction_num (results : List JSVal) (k : Int) :
    results.foldl addDeduction (.num k) = .num (k + specTotalDeduction results) := by
  induction results generalizing k with
  | nil => simp [specTotalDeduction]
  | cons r rest ih =>
    rw [List.foldl_cons, addDeduction_num, ih]
    simp [specTotalDeduction, Int.add_assoc]

/-- Adding a deduction to a string accumulator concatenates, so the accumulator stays a
string. -/
theorem foldl_addDeduction_str (rest : List JSVal) (text : String) :
    ∃ result, rest.foldl addDeduction (.str text) = .str result := by
  induction rest generalizing text with
  | nil => exact ⟨text, rfl⟩
  | cons r rest ih =>
    rw [List.foldl_cons]
    have hstep : ∃ next, addDeduction (.str text) r = .str next :=
      ⟨_, by simp only [addDeduction, jsAdd, concatenates, Bool.true_or, if_true]; rfl⟩
    obtain ⟨next, hnext⟩ := hstep
    rw [hnext]
    exact ih next

/-- Whenever the first stage result is an object, the value computed by the `reduce` of
`initAll` is not of type number: it is that object itself when there is one result, and a
string starting with its text form otherwise. -/
theorem initTimeDeduction_first_object (field : JSVal) (rest : List JSVal) :
    ∃ value, initTimeDeduction (.obj field :: rest) = .ok value
      ∧ typeof value ≠ "number" := by
  cases rest with
  | nil => exact ⟨.obj field, rfl, by simp [typeof]⟩
  | cons r rest =>
    have hstep : ∃ next, addDeduction (.obj field) r = .str next :=
      ⟨_, by simp only [addDeduction, jsAdd, concatenates, Bool.true_or, if_true]; rfl⟩
    obtain ⟨next, hnext⟩ := hstep
    obtain ⟨result, hresult⟩ := foldl_addDeduction_str rest next
    refine ⟨.str result, ?_, by simp [typeof]⟩
    simp [initTimeDeduction, arrayReduce, List.foldl_cons, hnext, hresult]

/-- C3: on the stage results `[{initTimeDeduction: 5}, {}, {initTimeDeduction: "x"},
{initTimeDeduction: 10}]` the `reduce` of `initAll` yields the string
`"[object Object]0010"`, and that string is what the start-up diagnostic receives, whereas
the sum of the numeric fields is 15. -/
theorem initTimeDeduction_is_not_the_sum :
    initTimeDeduction [.obj (.num 5), .obj .undefined, .obj (.str "x"), .obj (.num 10)]
        = .ok (.str "[object Object]0010")
      ∧ specTotalDeduction [.obj (.num 5), .obj .undefined, .obj (.str "x"), .obj (.num 10)] = 15
      ∧ (initAll
          (sampleEnv
            [⟨"one", .resolved (.obj (.num 5))⟩, ⟨"two", .resolved (.obj .undefined)⟩,
             ⟨"three", .resolved (.obj (.str "x"))⟩, ⟨"four", .resolved (.obj (.num 10))⟩])
          {}).events.getLast?
        = some (.initMsg 1000 (.str "[object Object]0010")) := by
  refine ⟨rfl, by decide, by decide⟩

/-! ### The progress bar -/

/-- C10: with the progress bar constructed and all eleven stages of `main.js` resolving,
`pb.next` is called once in the whole run, after the last stage has settled, although the
bar was created with eleven steps. -/
theorem initAll_advances_progress_bar_once :
    ((initAll (sampleEnv (initStages fun _ => .resolved .undefined)) {}).events.filter Event.isPbNext).length = 1
      ∧ (initStages fun _ => .resolved .undefined).length = 11
      ∧ (initAll (sampleEnv (initStages fun _ => .resolved .undefined)) {}).events.take 4
        = [.progressBarCreated 11 "Initializing Languages module",
           .debug "Init" "Sequentially initializing all 11 modules...",
           .stageInvoked 0, .stageSettled 0 true] := by
  refine ⟨by decide, by decide, by decide⟩

/-! ### The stage sequence -/

/-- The trace of `count` stages that all resolve, the first of them having index `index`. -/
theorem promiseAllSequential_all_resolved (fns : List Settled)
    (hall : ∀ fn ∈ fns, ∃ v, fn = Settled.resolved v) (index : Nat) :
    (promiseAllSequential index fns).1
        = (List.range fns.length).flatMap
            (fun i => [Event.stageInvoked (index + i), Event.stageSettled (index + i) true])
      ∧ ∃ values, (promiseAllSequential index fns).2 = .ok values
          ∧ values.length = fns.length := by
  induction fns generalizing index with
  | nil => exact ⟨rfl, [], rfl, rfl⟩
  | cons fn rest ih =>
    obtain ⟨v, rfl⟩ := hall fn (List.mem_cons_self _ _)
    obtain ⟨hev, values, hval, hlen⟩ :=
      ih (fun f hf => hall f (List.mem_cons_of_mem _ hf)) (index + 1)
    refine ⟨?_, v :: values, ?_, ?_⟩
    · simp only [promiseAllSequential, hev, List.length_cons, List.range_succ_eq_map,
        List.flatMap_cons, List.flatMap_map, Nat.add_zero, List.cons_append, List.nil_append]
      congr 2
      apply List.flatMap_congr
      intro i _
      simp [Nat.add_assoc, Nat.add_comm 1 i]
    · simp [promiseAllSequential, hval]
    · simp [hlen]

/-- The trace of a sequence whose first rejection comes after `pre.length` resolved
stages: the stages up to the failing one, and nothing of the stages behind it. -/
theorem promiseAllSequential_first_rejection (pre post : List Settled) (reason : JSVal)
    (hpre : ∀ fn ∈ pre, ∃ v, fn = Settled.resolved v) (index : Nat) :
    promiseAllSequential index (pre ++ Settled.rejected reason :: post)
      = ((List.range pre.length).flatMap
            (fun i => [Event.stageInvoked (index + i), Event.stageSettled (index + i) true])
          ++ [Event.stageInvoked (index + pre.length),
              Event.stageSettled (index + pre.length) false],
         .error reason) := by
  induction pre generalizing index with
  | nil => simp [promiseAllSequential]
  | cons fn rest ih =>
    obtain ⟨v, rfl⟩ := hpre fn (List.mem_cons_self _ _)
    have h := ih (fun f hf => hpre f (List.mem_cons_of_mem _ hf)) (index + 1)
    rw [List.cons_append, promiseAllSequential, h]
    simp only [List.length_cons, List.range_succ_eq_map, List.flatMap_cons, List.flatMap_map,
      Nat.add_zero, List.nil_append, List.cons_append, Prod.mk.injEq, List.cons.injEq,
      true_and, and_true]
    have e1 : index + 1 + rest.length = index + (rest.length + 1) := by omega
    rw [e1]
    congr 1
    apply List.flatMap_congr
    intro i _
    simp [Nat.add_assoc, Nat.add_comm 1 i]

/-- Every event emitted by the stage sequence is a stage event. -/
theorem promiseAllSequential_events_are_stage_events (fns : List Settled) (index : Nat) :
    ∀ e ∈ (promiseAllSequential index fns).1, e.isStageEvent = true := by
  induction fns generalizing index with
  | nil => simp [promiseAllSequential]
  | cons fn rest ih =>
    cases fn with
    | rejected reason => simp [promiseAllSequential, Event.isStageEvent]
    | resolved v =>
      intro e he
      simp only [promiseAllSequential, List.mem_cons] at he
      rcases he with rfl | rfl | he
      · rfl
      · rfl
      · exact ih (index + 1) e he

/-- The progress bar can only fail to be constructed when there is no stage at all. -/
theorem createProgressBar_error (env : InitEnv) (err : JSVal)
    (h : createProgressBar env = .error err) : env.initStages = [] := by
  unfold createProgressBar at h
  split at h
  · split at h
    · assumption
    · cases h
  · cases h

/-- The events of constructing the progress bar are no stage events. -/
theorem pbCreated_filter (pb : Option ProgressBar) :
    (pbCreated pb).filter Event.isStageEvent = [] := by
  cases pb <;> rfl

/-- A stage event is no call of `pb.next`. -/
theorem isPbNext_of_isStageEvent (e : Event) (h : e.isStageEvent = true) :
    e.isPbNext = false := by
  cases e <;> first | rfl | cases h

/-- Whenever the progress bar is constructed and every stage resolves, a run of `initAll`
calls `pb.next` once, whatever the number of stages. -/
theorem initAll_pbNext_count (env : InitEnv) (state : SplashState) (bar : ProgressBar)
    (hdirs : env.ensureDirs = .ok ())
    (hload : ∃ m, (loadSplashes env.arrayMethods state.splashDefaultLang env.splashesFile).2 = .ok m)
    (hall : ∀ stage ∈ env.initStages, ∃ v, stage.fn = Settled.resolved v)
    (hpb : createProgressBar env = .ok (some bar)) :
    ((initAll env state).events.filter Event.isPbNext).length = 1 := by
  obtain ⟨m, hm⟩ := hload
  have hls : loadSplashes env.arrayMethods state.splashDefaultLang env.splashesFile
      = ((loadSplashes env.arrayMethods state.splashDefaultLang env.splashesFile).1, .ok m) := Prod.ext rfl hm
  have hfns : ∀ fn ∈ env.initStages.map (fun stage => stage.fn),
      ∃ v, fn = Settled.resolved v := by
    intro fn hfn
    obtain ⟨stage, hstage, rfl⟩ := List.mem_map.mp hfn
    exact hall stage hstage
  obtain ⟨_, values, hval, hlen⟩ := promiseAllSequential_all_resolved _ hfns 0
  have hne : env.initStages ≠ [] := by
    intro hnil
    unfold createProgressBar at hpb
    rw [hnil] at hpb
    split at hpb <;> cases hpb
  have hnone : (promiseAllSequential 0 (env.initStages.map fun stage => stage.fn)).1.filter
      Event.isPbNext = [] := by
    apply List.filter_eq_nil_iff.mpr
    intro e he
    have hstage := promiseAllSequential_events_are_stage_events _ 0 e he
    rw [isPbNext_of_isStageEvent e hstage]
    simp
  obtain ⟨deduction, hded⟩ : ∃ deduction, initTimeDeduction values = .ok deduction := by
    cases values with
    | nil =>
      rw [List.length_map] at hlen
      exact absurd (List.length_eq_zero.mp hlen.symm) hne
    | cons first rest => exact ⟨_, rfl⟩
  unfold initAll
  rw [hdirs]
  simp only
  rw [hls]
  simp only
  rw [hpb]
  simp only [hval, Except.bind, hded]
  simp [List.filter_append, List.filter_cons, hnone, pbCreated, Event.isPbNext]

/-- C2: when the directories exist, the splashes load and every stage resolves, the stage
events of `initAll` are, for the stage indices in list order, the call of the stage's
`init` followed by the settling of its future: each `init` is called once, lowest index
first, and never before the future of the stage before it has settled. -/
theorem initAll_sequential (env : InitEnv) (state : SplashState)
    (hdirs : env.ensureDirs = .ok ())
    (hload : ∃ m, (loadSplashes env.arrayMethods state.splashDefaultLang env.splashesFile).2 = .ok m)
    (hall : ∀ stage ∈ env.initStages, ∃ v, stage.fn = Settled.resolved v) :
    (initAll env state).events.filter Event.isStageEvent
      = (List.range env.initStages.length).flatMap
          (fun i => [Event.stageInvoked i, Event.stageSettled i true]) := by
  obtain ⟨m, hm⟩ := hload
  have hls : loadSplashes env.arrayMethods state.splashDefaultLang env.splashesFile
      = ((loadSplashes env.arrayMethods state.splashDefaultLang env.splashesFile).1, .ok m) := Prod.ext rfl hm
  have hfns : ∀ fn ∈ env.initStages.map (fun stage => stage.fn),
      ∃ v, fn = Settled.resolved v := by
    intro fn hfn
    obtain ⟨stage, hstage, rfl⟩ := List.mem_map.mp hfn
    exact hall stage hstage
  obtain ⟨hev, values, hval, _⟩ := promiseAllSequential_all_resolved _ hfns 0
  have hself := List.filter_eq_self.mpr
    (promiseAllSequential_events_are_stage_events (env.initStages.map fun stage => stage.fn) 0)
  simp only [Nat.zero_add, List.length_map] at hev
  unfold initAll
  rw [hdirs]
  simp only
  rw [hls]
  simp only
  cases hpb : createProgressBar env with
  | error err =>
    simp [createProgressBar_error env err hpb]
  | ok pb =>
    simp only [hval, Except.bind]
    cases hded : initTimeDeduction values with
    | ok deduction =>
      simp only [List.filter_append, List.filter_cons, pbCreated_filter, hself, List.nil_append,
        Event.isStageEvent]
      rw [hev]
      cases pb <;> simp [Event.isStageEvent]
    | error err =>
      simp only [List.filter_append, List.filter_cons, pbCreated_filter, hself, List.nil_append,
        Event.isStageEvent, initError]
      rw [hev]
      simp [Event.isStageEvent]

/-- C1: when the directories exist, the splashes load, the stages before stage `k` resolve
and the `init` of stage `k` rejects (`k = pre.length + 1`), then `initAll` calls the `init`
of the stages 1 to `k` only, in order, no stage after `k` is ever called, and the run ends
in `process.exit(1)`. -/
theorem initAll_fail_fast (env : InitEnv) (state : SplashState) (pre post : List Stage)
    (failing : Stage) (reason : JSVal)
    (hdirs : env.ensureDirs = .ok ())
    (hload : ∃ m, (loadSplashes env.arrayMethods state.splashDefaultLang env.splashesFile).2 = .ok m)
    (hstages : env.initStages = pre ++ failing :: post)
    (hpre : ∀ stage ∈ pre, ∃ v, stage.fn = Settled.resolved v)
    (hfail : failing.fn = Settled.rejected reason) :
    (initAll env state).events.filterMap Event.invokedIndex = List.range (pre.length + 1)
      ∧ (∀ j, pre.length < j → Event.stageInvoked j ∉ (initAll env state).events)
      ∧ (initAll env state).completion = .exited 1
      ∧ (initAll env state).events.getLast? = some (.processExit 1) := by
  obtain ⟨m, hm⟩ := hload
  have hls : loadSplashes env.arrayMethods state.splashDefaultLang env.splashesFile
      = ((loadSplashes env.arrayMethods state.splashDefaultLang env.splashesFile).1, .ok m) := Prod.ext rfl hm
  have hfns : ∀ fn ∈ pre.map (fun stage => stage.fn), ∃ v, fn = Settled.resolved v := by
    intro fn hfn
    obtain ⟨stage, hstage, rfl⟩ := List.mem_map.mp hfn
    exact hpre stage hstage
  have hseq := promiseAllSequential_first_rejection (pre.map fun stage => stage.fn)
    (post.map fun stage => stage.fn) reason hfns 0
  simp only [Nat.zero_add, List.length_map] at hseq
  have hmap : (env.initStages.map fun stage => stage.fn)
      = (pre.map fun stage => stage.fn) ++ Settled.rejected reason
          :: (post.map fun stage => stage.fn) := by
    simp [hstages, hfail]
  obtain ⟨pb, hpb⟩ : ∃ pb, createProgressBar env = .ok pb := by
    cases h : createProgressBar env with
    | ok pb => exact ⟨pb, rfl⟩
    | error err =>
      have hnil := createProgressBar_error env err h
      simp [hstages] at hnil
  have hevents : (initAll env state).events
      = pbCreated pb
        ++ Event.debug "Init"
            (modulesText "Sequentially initializing all " env.initStages.length " modules...")
        :: ((List.range pre.length).flatMap
              (fun i => [Event.stageInvoked i, Event.stageSettled i true])
            ++ [Event.stageInvoked pre.length, Event.stageSettled pre.length false])
        ++ (initError env "initializing" reason).1 := by
    unfold initAll
    rw [hdirs]
    simp only
    rw [hls]
    simp only
    rw [hpb]
    simp only [hmap, hseq, Except.bind]
  have hcompletion : (initAll env state).completion = .exited 1 := by
    unfold initAll
    rw [hdirs]
    simp only
    rw [hls]
    simp only
    rw [hpb]
    simp only [hmap, hseq, Except.bind, initError]
  have hindices : (initAll env state).events.filterMap Event.invokedIndex
      = List.range (pre.length + 1) := by
    rw [hevents]
    have hpbNone : (pbCreated pb).filterMap Event.invokedIndex = [] := by
      cases pb <;> rfl
    have hok : ((List.range pre.length).flatMap
        (fun i => [Event.stageInvoked i, Event.stageSettled i true])).filterMap
          Event.invokedIndex = List.range pre.length := by
      induction pre.length with
      | zero => rfl
      | succ n ih =>
        rw [List.range_succ, List.flatMap_append, List.filterMap_append, ih]
        simp [Event.invokedIndex]
    simp only [List.filterMap_append, List.filterMap_cons, hpbNone, hok, Event.invokedIndex,
      initError, List.filterMap_nil, List.nil_append, List.append_nil, List.range_succ]
  refine ⟨hindices, ?_, hcompletion, ?_⟩
  · intro j hj hmem
    have : j ∈ (initAll env state).events.filterMap Event.invokedIndex :=
      List.mem_filterMap.mpr ⟨_, hmem, rfl⟩
    rw [hindices, List.mem_range] at this
    omega
  · obtain ⟨text, htext⟩ : ∃ text, (initError env "initializing" reason).1
        = [Event.consoleLog text] ++ [Event.processExit 1] := ⟨_, rfl⟩
    rw [hevents, htext, ← List.append_assoc]
    exact List.getLast?_concat _

/-- Witness for C2: the eleven stages of `main.js`, all resolving. -/
theorem initAll_sequential_witness :
    (initAll (sampleEnv (initStages fun _ => .resolved .undefined)) {}).events.filter
        Event.isStageEvent
      = (List.range (sampleEnv (initStages fun _ => .resolved .undefined)).initStages.length).flatMap
          (fun i => [Event.stageInvoked i, Event.stageSettled i true]) :=
  initAll_sequential (sampleEnv (initStages fun _ => .resolved .undefined)) {} rfl ⟨_, rfl⟩
    (by
      intro stage hstage
      simp only [sampleEnv, initStages, List.mem_cons, List.mem_singleton, List.not_mem_nil,
        or_false] at hstage
      rcases hstage with rfl | rfl | rfl | rfl | rfl | rfl | rfl | rfl | rfl | rfl | rfl <;>
        exact ⟨_, rfl⟩)

/-- Witness for C1: the eleven stages of `main.js` with the fourth one, the lists module,
rejecting. -/
theorem initAll_fail_fast_witness :
    (initAll
          (sampleEnv (initStages fun i =>
            if i = 3 then .rejected (.error "Error" "boom") else .resolved .undefined))
          {}).events.filterMap Event.invokedIndex = [0, 1, 2, 3]
      ∧ (initAll
          (sampleEnv (initStages fun i =>
            if i = 3 then .rejected (.error "Error" "boom") else .resolved .undefined))
          {}).completion = .exited 1 :=
  have h := initAll_fail_fast
    (sampleEnv (initStages fun i =>
      if i = 3 then .rejected (.error "Error" "boom") else .resolved .undefined))
    {}
    [⟨"Languages module", .resolved .undefined⟩, ⟨"Translations module", .resolved .undefined⟩,
      ⟨"Joke parser module", .resolved .undefined⟩]
    [⟨"Documentation module", .resolved .undefined⟩,
      ⟨"Authorization module", .resolved .undefined⟩,
      ⟨"URL parser module", .resolved .undefined⟩, ⟨"HTTP server module", .resolved .undefined⟩,
      ⟨"Analytics module", .resolved .undefined⟩, ⟨"Joke cache module", .resolved .undefined⟩,
      ⟨"pm2 meter module", .resolved .undefined⟩]
    ⟨"Lists module", .rejected (.error "Error" "boom")⟩ (.error "Error" "boom")
    rfl ⟨_, rfl⟩ rfl
    (by
      intro stage hstage
      simp only [List.mem_cons, List.mem_singleton, List.not_mem_nil, or_false] at hstage
      rcases hstage with rfl | rfl | rfl <;> exact ⟨_, rfl⟩)
    rfl
  ⟨h.1, h.2.2.1⟩


/-! ### The splash projection -/

/-- Looking a key up behind an appended list. -/
theorem lookup_append_right {β : Type} (l l2 : List (String × β)) (k : String) :
    (l ++ l2).lookup k = (l.lookup k).orElse fun _ => l2.lookup k := by
  induction l with
  | nil => simp
  | cons e rest ih =>
    obtain ⟨key, val⟩ := e
    by_cases h : k = key
    · subst h
      simp [List.lookup_cons]
    · have hb : (k == key) = false := by simpa using h
      simp [List.lookup_cons, hb, ih]

/-- Looking a key up after the entries of key `k` have been modified in place. -/
theorem lookup_map_modify {β : Type} (l : List (String × β)) (k key : String) (g : β → β) :
    (l.map fun entry => if entry.1 = k then (entry.1, g entry.2) else entry).lookup key
      = if key = k then (l.lookup key).map g else l.lookup key := by
  induction l with
  | nil => simp
  | cons e rest ih =>
    obtain ⟨ekey, val⟩ := e
    by_cases h1 : key = ekey
    · subst h1
      by_cases h2 : key = k
      · subst h2
        simp [List.lookup_cons]
      · simp [List.lookup_cons, h2]
    · have hb : (key == ekey) = false := by simpa using h1
      by_cases h2 : ekey = k
      · subst h2
        simp only [List.map_cons, if_true, List.lookup_cons, hb, ih]
      · simp only [List.map_cons, h2, if_false, List.lookup_cons, hb, ih]

/-- A property read yields an array exactly for an own property, and for `__proto__` once
an array has been installed as the prototype: nothing else on the prototype chain is an
array. -/
theorem isArray_readProp (arrayMethods : String → Option Nat) (splashes : SplashMap)
    (key : String) :
    (readProp arrayMethods splashes key).isArray
      = ((splashes.own.lookup key).isSome
          || (decide (key = "__proto__") && splashes.proto.isSome)) := by
  unfold readProp
  cases hown : splashes.own.lookup key with
  | some items => simp [PropValue.isArray]
  | none =>
    by_cases hkey : key = "__proto__"
    · cases hproto : splashes.proto <;> simp [hkey, PropValue.isArray]
    · cases hproto : splashes.proto with
      | none =>
        simp only [hkey, if_false, Option.isSome_none, Bool.false_or, decide_False,
          Bool.false_and]
        cases objectPrototypeMethod key <;> rfl
      | some items =>
        simp only [hkey, if_false, Option.isSome_none, Bool.false_or, decide_False,
          Bool.false_and]
        cases indexProp 0 items key with
        | some item => rfl
        | none =>
          simp only
          split
          · rfl
          · cases arrayMethods key with
            | some length => rfl
            | none => cases objectPrototypeMethod key <;> rfl

/-- One `pushSplash` with the key `__proto__` on an object without an own property of
that name: the text goes onto the array installed as the prototype, and the own
properties stay as they are. -/
theorem pushSplash_proto (arrayMethods : String → Option Nat) (splashes : SplashMap)
    (text : JSVal) (hinv : splashes.own.lookup "__proto__" = none) :
    pushSplash arrayMethods splashes "__proto__" text
      = { own := splashes.own, proto := some (splashes.proto.getD [] ++ [text]) } := by
  unfold pushSplash
  rw [isArray_readProp]
  cases hproto : splashes.proto with
  | none => simp [hinv, assignEmptyArray, pushOnto]
  | some items => simp [hinv, hproto, pushOnto]

/-- One `pushSplash` with another key: the prototype stays as it is, and the text is
appended to the array under that key, which is created when missing. -/
theorem pushSplash_own (arrayMethods : String → Option Nat) (splashes : SplashMap)
    (langCode : String) (text : JSVal) (hkey : langCode ≠ "__proto__") :
    (pushSplash arrayMethods splashes langCode text).proto = splashes.proto
      ∧ ∀ key, (pushSplash arrayMethods splashes langCode text).own.lookup key
          = if key = langCode then some ((splashes.own.lookup langCode).getD [] ++ [text])
            else splashes.own.lookup key := by
  have hmod := fun l : List (String × List JSVal) => fun key : String =>
    lookup_map_modify l langCode key (fun arr => arr ++ [text])
  simp only at hmod
  unfold pushSplash
  rw [isArray_readProp]
  cases hown : splashes.own.lookup langCode with
  | some items =>
    refine ⟨by simp [hown, pushOnto], fun key => ?_⟩
    simp only [Option.isSome_some, Bool.true_or, Bool.not_true, Bool.false_eq_true, if_false,
      pushOnto, hown, if_true, hmod]
    by_cases h : key = langCode
    · subst h
      simp [hown]
    · simp [h]
  | none =>
    have happ : (splashes.own ++ [(langCode, ([] : List JSVal))]).lookup langCode
        = some [] := by
      simp [lookup_append_right, hown, List.lookup_cons]
    refine ⟨by simp [hkey, assignEmptyArray, hown, pushOnto, happ], fun key => ?_⟩
    simp only [hkey, decide_False, Bool.false_and, Option.isSome_none, Bool.or_false,
      Bool.not_false, if_true, assignEmptyArray, if_false, hown, Bool.false_eq_true, pushOnto,
      happ, Option.isSome_some, hmod]
    by_cases h : key = langCode
    · subst h
      simp [happ]
    · have hb : (key == langCode) = false := by simpa using h
      simp [h, lookup_append_right, List.lookup_cons, hb]

/-- A name is among the keys of an object exactly when the object has that property. -/
theorem mem_objectKeys {α : Type} (o : List (String × α)) (key : String) :
    key ∈ objectKeys o ↔ (o.lookup key).isSome = true := by
  induction o with
  | nil => simp [objectKeys]
  | cons e rest ih =>
    obtain ⟨ekey, val⟩ := e
    by_cases h : key = ekey
    · subst h
      simp [objectKeys, List.lookup_cons]
    · have hb : (key == ekey) = false := by simpa using h
      simp [objectKeys, List.lookup_cons, hb, h, ih]

/-- The keys of an object are pairwise distinct. -/
theorem nodup_objectKeys {α : Type} (o : List (String × α)) : (objectKeys o).Nodup := by
  induction o with
  | nil => simp [objectKeys]
  | cons e rest ih =>
    obtain ⟨ekey, val⟩ := e
    rw [objectKeys, List.nodup_cons]
    refine ⟨?_, ih.filter _⟩
    simp [List.mem_filter]

/-- The inner loop of `loadSplashes` over pairwise distinct keys, started from an object
without an own property `__proto__`: the object still has no such own property, every other
key of the loop gets its value appended, and the value of a key `__proto__` is appended to
the array installed as the prototype. -/
theorem foldl_pushSplash (arrayMethods : String → Option Nat) (keys : List String)
    (hnodup : keys.Nodup) (value : String → JSVal) (splashes : SplashMap)
    (hinv : splashes.own.lookup "__proto__" = none) :
    (keys.foldl (fun acc langCode => pushSplash arrayMethods acc langCode (value langCode))
        splashes).own.lookup "__proto__" = none
      ∧ (∀ key, key ≠ "__proto__" →
          (keys.foldl (fun acc langCode => pushSplash arrayMethods acc langCode (value langCode))
              splashes).own.lookup key
            = if key ∈ keys then some ((splashes.own.lookup key).getD [] ++ [value key])
              else splashes.own.lookup key)
      ∧ (keys.foldl (fun acc langCode => pushSplash arrayMethods acc langCode (value langCode))
            splashes).proto
          = if "__proto__" ∈ keys then some (splashes.proto.getD [] ++ [value "__proto__"])
            else splashes.proto := by
  induction keys generalizing splashes with
  | nil => exact ⟨hinv, fun key _ => by simp, by simp⟩
  | cons k rest ih =>
    obtain ⟨hk, hrest⟩ := List.nodup_cons.mp hnodup
    rw [List.foldl_cons]
    by_cases hproto : k = "__proto__"
    · subst hproto
      rw [pushSplash_proto arrayMethods splashes _ hinv]
      obtain ⟨h1, h2, h3⟩ := ih hrest
        { own := splashes.own, proto := some (splashes.proto.getD [] ++ [value "__proto__"]) }
        hinv
      refine ⟨h1, fun key hkey => ?_, ?_⟩
      · rw [h2 key hkey]
        simp [hkey]
      · rw [h3]
        simp [hk]
    · obtain ⟨hp, hown⟩ := pushSplash_own arrayMethods splashes k (value k) hproto
      have hinv1 : (pushSplash arrayMethods splashes k (value k)).own.lookup "__proto__"
          = none := by
        rw [hown]
        simp [Ne.symm hproto, hinv]
      obtain ⟨h1, h2, h3⟩ := ih hrest (pushSplash arrayMethods splashes k (value k)) hinv1
      refine ⟨h1, fun key hkey => ?_, ?_⟩
      · rw [h2 key hkey, hown]
        by_cases h : key = k
        · subst h
          simp [hk]
        · simp [h]
      · rw [h3, hp]
        simp [Ne.symm hproto]

/-- The outer loop of `loadSplashes`, started from an object without an own property
`__proto__`. -/
theorem foldl_pushObject (arrayMethods : String → Option Nat) (splashObjs : List SplashObj)
    (splashes : SplashMap) (hinv : splashes.own.lookup "__proto__" = none) :
    (splashObjs.foldl (pushObject arrayMethods) splashes).own.lookup "__proto__" = none
      ∧ (∀ key, key ≠ "__proto__" →
          (splashObjs.foldl (pushObject arrayMethods) splashes).own.lookup key
            = if (splashObjs.filter fun o => decide (key ∈ objectKeys o)) = [] then
                splashes.own.lookup key
              else some ((splashes.own.lookup key).getD []
                ++ (splashObjs.filter fun o => decide (key ∈ objectKeys o)).map
                    fun o => getProp o key))
      ∧ (splashObjs.foldl (pushObject arrayMethods) splashes).proto
          = if (splashObjs.filter fun o => decide ("__proto__" ∈ objectKeys o)) = [] then
              splashes.proto
            else some (splashes.proto.getD []
              ++ (splashObjs.filter fun o => decide ("__proto__" ∈ objectKeys o)).map
                  fun o => getProp o "__proto__") := by
  induction splashObjs generalizing splashes with
  | nil => exact ⟨hinv, fun key _ => by simp, by simp⟩
  | cons o rest ih =>
    obtain ⟨g1, g2, g3⟩ :=
      foldl_pushSplash arrayMethods (objectKeys o) (nodup_objectKeys o) (getProp o) splashes hinv
    obtain ⟨h1, h2, h3⟩ := ih (pushObject arrayMethods splashes o) g1
    rw [List.foldl_cons]
    refine ⟨h1, fun key hkey => ?_, ?_⟩
    · rw [h2 key hkey]
      have g2key := g2 key hkey
      unfold pushObject
      rw [g2key]
      by_cases h : key ∈ objectKeys o
      · simp [h]
      · simp [h]
    · rw [h3]
      unfold pushObject
      rw [g3]
      by_cases h : "__proto__" ∈ objectKeys o
      · simp [h]
      · simp [h]

/-- The array stored under a language code other than `__proto__` by the projection. -/
theorem lookup_projectSplashes (arrayMethods : String → Option Nat)
    (splashObjs : List SplashObj) (key : String) (hkey : key ≠ "__proto__") :
    (projectSplashes arrayMethods splashObjs).own.lookup key
      = if (splashObjs.filter fun o => decide (key ∈ objectKeys o)) = [] then none
        else some ((splashObjs.filter fun o => decide (key ∈ objectKeys o)).map
          fun o => getProp o key) := by
  unfold projectSplashes
  rw [(foldl_pushObject arrayMethods splashObjs {} rfl).2.1 key hkey]
  simp

/-- The projection never has an own property `__proto__`. -/
theorem lookup_projectSplashes_proto (arrayMethods : String → Option Nat)
    (splashObjs : List SplashObj) :
    (projectSplashes arrayMethods splashObjs).own.lookup "__proto__" = none :=
  (foldl_pushObject arrayMethods splashObjs {} rfl).1

/-- The values found under the key `__proto__` end up, in file order, in the array that is
installed as the prototype of the projection. -/
theorem proto_projectSplashes (arrayMethods : String → Option Nat)
    (splashObjs : List SplashObj) :
    (projectSplashes arrayMethods splashObjs).proto
      = if (splashObjs.filter fun o => decide ("__proto__" ∈ objectKeys o)) = [] then none
        else some ((splashObjs.filter fun o => decide ("__proto__" ∈ objectKeys o)).map
          fun o => getProp o "__proto__") := by
  unfold projectSplashes
  rw [(foldl_pushObject arrayMethods splashObjs {} rfl).2.2]
  simp

/-- A successful `loadSplashes` resolves with the projection of the file. -/
theorem loadSplashes_ok (arrayMethods : String → Option Nat) (defaultLang : String)
    (file : SplashesFile) (m : SplashMap)
    (h : (loadSplashes arrayMethods defaultLang (.parsed file)).2 = .ok m) :
    m = projectSplashes arrayMethods file.splashes ∧ objectKeys m.own ≠ [] := by
  unfold loadSplashes at h
  simp only at h
  split at h
  · rename_i hpos
    simp only [Except.ok.injEq] at h
    subst h
    exact ⟨rfl, fun hnil => by simp [hnil] at hpos⟩
  · cases h

/-- A language code other than `__proto__` is a key of the projection exactly when some
object of the array has it. -/
theorem mem_objectKeys_projectSplashes (arrayMethods : String → Option Nat)
    (splashObjs : List SplashObj) (key : String) :
    key ∈ objectKeys (projectSplashes arrayMethods splashObjs).own
      ↔ key ≠ "__proto__" ∧ ∃ o ∈ splashObjs, key ∈ objectKeys o := by
  rw [mem_objectKeys]
  by_cases hkey : key = "__proto__"
  · subst hkey
    simp [lookup_projectSplashes_proto]
  · rw [lookup_projectSplashes arrayMethods splashObjs key hkey]
    by_cases hf : (splashObjs.filter fun o => decide (key ∈ objectKeys o)) = []
    · simp only [hf, if_true, Option.isSome_none, Bool.false_eq_true, false_iff]
      rintro ⟨_, o, ho, hL⟩
      have : o ∈ splashObjs.filter fun o => decide (key ∈ objectKeys o) :=
        List.mem_filter.mpr ⟨ho, by simpa using hL⟩
      rw [hf] at this
      cases this
    · simp only [hf, if_false, Option.isSome_some, true_iff]
      obtain ⟨o, ho⟩ := List.exists_mem_of_ne_nil _ hf
      obtain ⟨ho1, ho2⟩ := List.mem_filter.mp ho
      exact ⟨hkey, o, ho1, by simpa using ho2⟩

/-- C9, counterexample: in the file whose single splash object is
`{"__proto__": "x", "en": "a"}` the key `__proto__` has the value `"x"`, yet the mapping
that `loadSplashes` resolves with has the single key `en` and stores nothing under
`__proto__`: the assignment of the empty array installed it as the prototype of the
mapping, and `"x"` was pushed onto that prototype. -/
theorem loadSplashes_projection_proto_key :
    loadSplashes sampleArrayMethods "en"
        (.parsed ⟨"en", [[("__proto__", .str "x"), ("en", .str "a")]]⟩)
        = ("en", .ok { own := [("en", [.str "a"])], proto := some [.str "x"] })
      ∧ "__proto__" ∈ objectKeys [("__proto__", JSVal.str "x"), ("en", JSVal.str "a")]
      ∧ getProp [("__proto__", .str "x"), ("en", .str "a")] "__proto__" = .str "x"
      ∧ List.lookup "__proto__" [("en", [JSVal.str "a"])] = none
      ∧ objectKeys [("en", [JSVal.str "a"])] = ["en"] := by
  refine ⟨rfl, by decide, by decide, by decide, by decide⟩

/-- C9, amended: for every splash file that loads and every language code `L` other than
`__proto__`, the array stored under `L` is the sequence of the values `splashObj[L]` of the
objects of the `splashes` array that have the key `L`, in file order, and `L` is a key of
the mapping exactly when some object has it; under `__proto__` the mapping stores no
entry. -/
theorem loadSplashes_projection_own (arrayMethods : String → Option Nat) (defaultLang : String)
    (file : SplashesFile) (m : SplashMap) (L : String)
    (h : (loadSplashes arrayMethods defaultLang (.parsed file)).2 = .ok m)
    (hL : L ≠ "__proto__") :
    m.own.lookup L
        = (if (file.splashes.filter fun o => decide (L ∈ objectKeys o)) = [] then none
          else some ((file.splashes.filter fun o => decide (L ∈ objectKeys o)).map
            fun o => getProp o L))
      ∧ (L ∈ objectKeys m.own ↔ ∃ o ∈ file.splashes, L ∈ objectKeys o)
      ∧ m.own.lookup "__proto__" = none := by
  obtain ⟨rfl, _⟩ := loadSplashes_ok arrayMethods defaultLang file m h
  refine ⟨lookup_projectSplashes _ _ _ hL, ?_, lookup_projectSplashes_proto _ _⟩
  rw [mem_objectKeys_projectSplashes]
  exact ⟨fun hx => hx.2, fun hx => ⟨hL, hx⟩⟩

/-- Witness for C9, amended: a file with two objects, the first with an English and a
German splash, the second with an English one, and the code `en`. -/
theorem loadSplashes_projection_own_witness :
    List.lookup "en" [("en", [JSVal.str "a", JSVal.str "b"]), ("de", [JSVal.str "x"])]
        = (if ([[("en", JSVal.str "a"), ("de", JSVal.str "x")], [("en", JSVal.str "b")]].filter
              fun o => decide ("en" ∈ objectKeys o)) = [] then none
          else some (([[("en", JSVal.str "a"), ("de", JSVal.str "x")],
              [("en", JSVal.str "b")]].filter fun o => decide ("en" ∈ objectKeys o)).map
            fun o => getProp o "en"))
      ∧ ("en" ∈ objectKeys [("en", [JSVal.str "a", JSVal.str "b"]), ("de", [JSVal.str "x"])]
          ↔ ∃ o ∈ [[("en", JSVal.str "a"), ("de", JSVal.str "x")], [("en", JSVal.str "b")]],
              "en" ∈ objectKeys o)
      ∧ List.lookup "__proto__"
          [("en", [JSVal.str "a", JSVal.str "b"]), ("de", [JSVal.str "x"])] = none :=
  loadSplashes_projection_own sampleArrayMethods "en"
    ⟨"en", [[("en", .str "a"), ("de", .str "x")], [("en", .str "b")]]⟩
    { own := [("en", [.str "a", .str "b"]), ("de", [.str "x"])], proto := none } "en" rfl
    (by decide)

/-- The projection has a language code exactly when some object of the array has a key
other than `__proto__`. -/
theorem objectKeys_projectSplashes_ne_nil (arrayMethods : String → Option Nat)
    (splashObjs : List SplashObj) :
    objectKeys (projectSplashes arrayMethods splashObjs).own ≠ []
      ↔ ∃ o ∈ splashObjs, ∃ key ∈ objectKeys o, key ≠ "__proto__" := by
  constructor
  · intro h
    obtain ⟨key, hkey⟩ := List.exists_mem_of_ne_nil _ h
    obtain ⟨hne, o, ho, hmem⟩ := (mem_objectKeys_projectSplashes _ _ _).mp hkey
    exact ⟨o, ho, key, hmem, hne⟩
  · rintro ⟨o, ho, key, hmem, hne⟩
    exact List.ne_nil_of_mem ((mem_objectKeys_projectSplashes _ _ _).mpr ⟨hne, o, ho, hmem⟩)

/-- C6: for every parsed splash file, `loadSplashes` resolves exactly when the projected
mapping has at least one language code (`Object.keys` is not empty), which is exactly when
some object of the `splashes` array has a key other than `__proto__`; when it resolves,
every language code of the result maps to a non-empty array; and on an empty `splashes`
array it rejects, reporting that no splashes are present. -/
theorem loadSplashes_resolves_iff (arrayMethods : String → Option Nat) (defaultLang : String)
    (file : SplashesFile) :
    ((∃ m, (loadSplashes arrayMethods defaultLang (.parsed file)).2 = .ok m)
        ↔ objectKeys (projectSplashes arrayMethods file.splashes).own ≠ [])
      ∧ ((∃ m, (loadSplashes arrayMethods defaultLang (.parsed file)).2 = .ok m)
        ↔ ∃ o ∈ file.splashes, ∃ key ∈ objectKeys o, key ≠ "__proto__")
      ∧ (∀ m, (loadSplashes arrayMethods defaultLang (.parsed file)).2 = .ok m →
          ∀ L ∈ objectKeys m.own, ∃ arr, m.own.lookup L = some arr ∧ arr ≠ [])
      ∧ (loadSplashes arrayMethods defaultLang (.parsed ⟨file.defaultLang, []⟩)).2
          = .error .noSplashes := by
  have hiff : (∃ m, (loadSplashes arrayMethods defaultLang (.parsed file)).2 = .ok m)
      ↔ objectKeys (projectSplashes arrayMethods file.splashes).own ≠ [] := by
    constructor
    · rintro ⟨m, hm⟩
      obtain ⟨rfl, hne⟩ := loadSplashes_ok arrayMethods defaultLang file m hm
      exact hne
    · intro hne
      refine ⟨projectSplashes arrayMethods file.splashes, ?_⟩
      have hpos : (objectKeys (projectSplashes arrayMethods file.splashes).own).length > 0 :=
        List.length_pos.mpr hne
      simp [loadSplashes, hpos]
  refine ⟨hiff, hiff.trans (objectKeys_projectSplashes_ne_nil _ _), ?_, rfl⟩
  intro m hm L hL
  obtain ⟨rfl, _⟩ := loadSplashes_ok arrayMethods defaultLang file m hm
  obtain ⟨hne, o, ho, hmem⟩ := (mem_objectKeys_projectSplashes _ _ _).mp hL
  have hf : (file.splashes.filter fun o => decide (L ∈ objectKeys o)) ≠ [] :=
    List.ne_nil_of_mem (List.mem_filter.mpr ⟨ho, decide_eq_true hmem⟩)
  rw [lookup_projectSplashes arrayMethods file.splashes L hne]
  refine ⟨(file.splashes.filter fun o => decide (L ∈ objectKeys o)).map
      fun o => getProp o L, by simp [hf], ?_⟩
  intro hnil
  exact hf (List.map_eq_nil_iff.mp hnil)

/-- The file whose single splash object is `{"__proto__": "x"}` is rejected: the mapping
gets no own property. -/
theorem loadSplashes_proto_only :
    loadSplashes sampleArrayMethods "en" (.parsed ⟨"en", [[("__proto__", .str "x")]]⟩)
      = ("en", .error .noSplashes) :=
  rfl

/-! ### Splash lookup -/

/-- On a non-empty array `randomItem` returns one of its elements. -/
theorem randomItem_mem (rnd : Nat) (items : List JSVal) (hne : items ≠ []) :
    ∃ s, randomItem rnd (.array items) = some s ∧ s ∈ items := by
  have hlt : rnd % items.length < items.length :=
    Nat.mod_lt _ (List.length_pos.mpr hne)
  exact ⟨items[rnd % items.length], by simp [randomItem, List.getElem?_eq_getElem hlt],
    List.getElem_mem _⟩

/-- An own property of the mapping is what a read of its name yields. -/
theorem readProp_own (arrayMethods : String → Option Nat) (splashes : SplashMap)
    (key : String) (items : List JSVal) (h : splashes.own.lookup key = some items) :
    readProp arrayMethods splashes key = .array items := by
  simp [readProp, h]

/-- On a mapping whose prototype is `Object.prototype`, a name that is neither an own
property, nor `__proto__`, nor a method of `Object.prototype` reads as `undefined`. -/
theorem readProp_undefined (arrayMethods : String → Option Nat) (splashes : SplashMap)
    (key : String) (hown : splashes.own.lookup key = none) (hproto : splashes.proto = none)
    (hkey : key ≠ "__proto__") (hmethod : objectPrototypeMethod key = none) :
    readProp arrayMethods splashes key = .value .undefined := by
  simp [readProp, hown, hproto, hkey, hmethod]

/-- The result of `getSplash` when the default language has a non-empty array and the
requested language is an own property of the mapping or reads as `undefined`. -/
theorem getSplash_mem (arrayMethods : String → Option Nat) (state : SplashState) (rnd : Nat)
    (lang : String) (fallback : List JSVal)
    (hdefault : state.splashes.own.lookup state.splashDefaultLang = some fallback)
    (hne : fallback ≠ [])
    (hlang : (state.splashes.own.lookup lang).isSome = true
      ∨ readProp arrayMethods state.splashes lang = .value .undefined) :
    ∃ s, getSplash arrayMethods state rnd lang = some s
      ∧ (match state.splashes.own.lookup lang with
          | some (first :: others) => s ∈ first :: others
          | _ => s ∈ fallback) := by
  have hfallback := readProp_own arrayMethods state.splashes _ fallback hdefault
  obtain ⟨d, hd, hdmem⟩ := randomItem_mem rnd fallback hne
  unfold getSplash
  cases hl : state.splashes.own.lookup lang with
  | none =>
    have hread : readProp arrayMethods state.splashes lang = .value .undefined := by
      rcases hlang with h | h
      · simp [hl] at h
      · exact h
    exact ⟨d, by simpa [hread, PropValue.hasPositiveLength, hfallback] using hd, hdmem⟩
  | some items =>
    have hread := readProp_own arrayMethods state.splashes lang items hl
    cases items with
    | nil =>
      exact ⟨d, by simpa [hread, PropValue.hasPositiveLength, hfallback] using hd, hdmem⟩
    | cons first others =>
      obtain ⟨s, hs, hmem⟩ := randomItem_mem rnd (first :: others) (List.cons_ne_nil _ _)
      exact ⟨s, by simpa [hread, PropValue.hasPositiveLength] using hs, hmem⟩

/-- C5, counterexample: with `defaultLang = "en"`, `en = ["a", "b"]` and `de = []`, the
call `getSplash("constructor")` does not fall back to the default language: the read
`splashes["constructor"]` yields the function inherited from `Object.prototype`, whose
`length` is 1, so the first branch is taken and `randomItem` is handed that function
instead of an array; no member of the default array is returned, whatever the draw. -/
theorem getSplash_inherited_property :
    readProp sampleArrayMethods { own := [("en", [.str "a", .str "b"]), ("de", [])] }
        "constructor" = .function 1
      ∧ (PropValue.function 1).hasPositiveLength = true
      ∧ List.lookup "constructor" [("en", [JSVal.str "a", JSVal.str "b"]), ("de", [])] = none
      ∧ ∀ rnd, getSplash sampleArrayMethods
          ⟨{ own := [("en", [.str "a", .str "b"]), ("de", [])] }, "en"⟩ rnd "constructor"
            = none := by
  refine ⟨by decide, by decide, by decide, fun rnd => rfl⟩

/-- C5, amended: for every splash state whose default language has a non-empty array, every
requested language that is a language code of the mapping or reads as `undefined` on it
(it names nothing that the mapping inherits through its prototype chain), and every random
draw, `getSplash` returns a value; the value is a member of the array of the requested
language when that array is present and non-empty, and a member of the array of the
default language otherwise. -/
theorem getSplash_fallback (arrayMethods : String → Option Nat) (state : SplashState)
    (rnd : Nat) (lang : String) (fallback : List JSVal)
    (hdefault : state.splashes.own.lookup state.splashDefaultLang = some fallback)
    (hne : fallback ≠ [])
    (hlang : (state.splashes.own.lookup lang).isSome = true
      ∨ readProp arrayMethods state.splashes lang = .value .undefined) :
    ∃ s, getSplash arrayMethods state rnd lang = some s
      ∧ (match state.splashes.own.lookup lang with
          | some (first :: others) => s ∈ first :: others
          | _ => s ∈ fallback) :=
  getSplash_mem arrayMethods state rnd lang fallback hdefault hne hlang

/-- Witness for C5, amended: with `defaultLang = "en"`, `en = ["a", "b"]` and `de = []`,
the call `getSplash("de")` returns a member of the English array. -/
theorem getSplash_fallback_witness :
    ∃ s, getSplash sampleArrayMethods
        ⟨{ own := [("en", [.str "a", .str "b"]), ("de", [])] }, "en"⟩ 7 "de" = some s
      ∧ s ∈ [JSVal.str "a", JSVal.str "b"] :=
  getSplash_fallback sampleArrayMethods
    ⟨{ own := [("en", [.str "a", .str "b"]), ("de", [])] }, "en"⟩ 7 "de"
    [.str "a", .str "b"] rfl (by decide) (Or.inl rfl)

/-- The example of the specification under every random draw and every engine:
`getSplash("de")` is `"a"` or `"b"`. -/
theorem getSplash_example_every_draw (arrayMethods : String → Option Nat) (rnd : Nat) :
    getSplash arrayMethods ⟨{ own := [("en", [.str "a", .str "b"]), ("de", [])] }, "en"⟩
        rnd "de" = some (.str "a")
      ∨ getSplash arrayMethods ⟨{ own := [("en", [.str "a", .str "b"]), ("de", [])] }, "en"⟩
          rnd "de" = some (.str "b") := by
  obtain ⟨s, hs, hmem⟩ :=
    getSplash_mem arrayMethods ⟨{ own := [("en", [.str "a", .str "b"]), ("de", [])] }, "en"⟩
      rnd "de" [.str "a", .str "b"] rfl (by decide) (Or.inl rfl)
  have hmem2 : s ∈ [JSVal.str "a", JSVal.str "b"] := hmem
  simp only [List.mem_cons, List.mem_singleton, List.not_mem_nil, or_false] at hmem2
  rcases hmem2 with rfl | rfl
  · exact Or.inl hs
  · exact Or.inr hs

/-! ### The default language -/

/-- C8, counterexample: the file with `defaultLang = "en"` and the single splash object
`{de: "x"}` loads successfully, the recorded default language `"en"` has no entry in the
resulting mapping, and the fallback branch of `getSplash` finds no array to draw from. -/
theorem loadSplashes_default_language_absent :
    loadSplashes sampleArrayMethods "en" (.parsed ⟨"en", [[("de", .str "x")]]⟩)
        = ("en", .ok { own := [("de", [.str "x"])] })
      ∧ List.lookup "en" [("de", [JSVal.str "x"])] = none
      ∧ readProp sampleArrayMethods { own := [("de", [.str "x"])] } "en" = .value .undefined
      ∧ ∀ rnd, getSplash sampleArrayMethods ⟨{ own := [("de", [.str "x"])] }, "en"⟩ rnd "fr"
          = none := by
  refine ⟨rfl, rfl, by decide, fun rnd => rfl⟩

/-- C8, amended: for every splash file whose default language code is not `__proto__` and
is a key of some object of the `splashes` array, `loadSplashes` succeeds, records that code
in `splashDefaultLang`, and the resulting mapping has a non-empty array under it, which is
what the fallback branch of `getSplash` reads and hands to `randomItem`. -/
theorem loadSplashes_default_language_populated (arrayMethods : String → Option Nat)
    (defaultLang : String) (file : SplashesFile)
    (h : ∃ o ∈ file.splashes, file.defaultLang ∈ objectKeys o)
    (hkey : file.defaultLang ≠ "__proto__") :
    ∃ m arr, loadSplashes arrayMethods defaultLang (.parsed file) = (file.defaultLang, .ok m)
      ∧ m.own.lookup file.defaultLang = some arr
      ∧ arr ≠ []
      ∧ readProp arrayMethods m file.defaultLang = .array arr := by
  obtain ⟨o, ho, hmem⟩ := h
  have hf : (file.splashes.filter fun o => decide (file.defaultLang ∈ objectKeys o)) ≠ [] :=
    List.ne_nil_of_mem (List.mem_filter.mpr ⟨ho, decide_eq_true hmem⟩)
  have hne : objectKeys (projectSplashes arrayMethods file.splashes).own ≠ [] :=
    (objectKeys_projectSplashes_ne_nil _ _).mpr ⟨o, ho, file.defaultLang, hmem, hkey⟩
  have hpos : (objectKeys (projectSplashes arrayMethods file.splashes).own).length > 0 :=
    List.length_pos.mpr hne
  have hlookup : (projectSplashes arrayMethods file.splashes).own.lookup file.defaultLang
      = some ((file.splashes.filter fun o => decide (file.defaultLang ∈ objectKeys o)).map
          fun o => getProp o file.defaultLang) := by
    rw [lookup_projectSplashes arrayMethods file.splashes file.defaultLang hkey]
    simp [hf]
  have harr : ((file.splashes.filter fun o => decide (file.defaultLang ∈ objectKeys o)).map
      fun o => getProp o file.defaultLang) ≠ [] :=
    fun hnil => hf (List.map_eq_nil_iff.mp hnil)
  refine ⟨projectSplashes arrayMethods file.splashes, _, ?_, hlookup, harr,
    readProp_own _ _ _ _ hlookup⟩
  simp [loadSplashes, hpos]

/-- Witness for C8, amended: a file whose first object has the default language `"en"`. -/
theorem loadSplashes_default_language_populated_witness :
    ∃ m arr, loadSplashes sampleArrayMethods "xy"
        (.parsed ⟨"en", [[("en", .str "a"), ("de", .str "x")], [("de", .str "y")]]⟩)
          = ("en", .ok m)
      ∧ m.own.lookup "en" = some arr
      ∧ arr ≠ []
      ∧ readProp sampleArrayMethods m "en" = .array arr :=
  loadSplashes_default_language_populated sampleArrayMethods "xy"
    ⟨"en", [[("en", .str "a"), ("de", .str "x")], [("de", .str "y")]]⟩
    ⟨[("en", .str "a"), ("de", .str "x")], by decide, by decide⟩ (by decide)

end JokeAPI
